import Mathlib

/-!
Shallow embedding of the geohash subsystem (`gea/geohash.py`) and proofs of
the specification's claims about it.

Conventions of the embedding:
* Python strings of geohash characters are `List Char`; Python floats are
  modelled as exact rationals `ℚ` (the bisection arithmetic of the source is
  exact midpoint arithmetic).
* Python exceptions are modelled with `Except GeoErr`: `ValueError` raised by
  input validation is `GeoErr.invalidArgument`; the `KeyError`/`ValueError`
  raised when an out-of-alphabet character reaches a lookup table is
  `GeoErr.invalidCharacter`.
* `geohash_adjacent` takes its one-character direction argument as a `Char`
  (the source validates `len(direction) == 1` first, so a direction that
  passes validation is exactly one character).
-/

namespace Gea

/-- Error kinds of the library, mirroring the spec's error taxonomy:
`invalidArgument` models the `ValueError`s raised by explicit input
validation, `invalidCharacter` models the exception raised when a lookup of a
character in the alphabet / neighbour tables fails. -/
inductive GeoErr where
  | invalidArgument : GeoErr
  | invalidCharacter : GeoErr
deriving DecidableEq, Repr

/-- A latitude/longitude pair, in exact rational degrees
(model of the `{'lat': ..., 'lon': ...}` dictionaries of the source). -/
structure Coord where
  lat : ℚ
  lon : ℚ
deriving DecidableEq, Repr

/-- SW/NE corners of a geohash cell (model of the bounds dictionary
`{'sw': ..., 'ne': ...}` returned by `geohash_bounds`). -/
structure Bounds where
  sw : Coord
  ne : Coord
deriving DecidableEq, Repr

/-- The fixed 32-character geohash alphabet `__base32` of the source. -/
def __base32 : List Char := "0123456789bcdefghjkmnpqrstuvwxyz".toList

/-- The decode map `__decodemap`: position of a character in the alphabet.
A missing key (Python `KeyError`) is `none`. -/
def __decodemap (c : Char) : Option Nat := List.indexOf? c __base32

/-- The four cardinal directions accepted by `geohash_adjacent`
(the value of the already validated, lower-cased direction string). -/
inductive Dir where
  | n : Dir
  | s : Dir
  | e : Dir
  | w : Dir
deriving DecidableEq, Repr, Fintype

/-- Validation of the one-character direction argument of `geohash_adjacent`:
lower-case it and require membership in `'nsew'` (source lines 189–191). -/
def parseDir (c : Char) : Option Dir :=
  match c.toLower with
  | 'n' => some Dir.n
  | 's' => some Dir.s
  | 'e' => some Dir.e
  | 'w' => some Dir.w
  | _ => none

/-- The `__neighbour` lookup table of the source: for a direction and the
parity `ttype = len(geohash) % 2` (`0` selects the first string of the
Python list, anything else the second), a 32-character permutation string. -/
def __neighbour (d : Dir) (ttype : Nat) : List Char :=
  match d, ttype with
  | Dir.n, 0 => "p0r21436x8zb9dcf5h7kjnmqesgutwvy".toList
  | Dir.n, _ => "bc01fg45238967deuvhjyznpkmstqrwx".toList
  | Dir.s, 0 => "14365h7k9dcfesgujnmqp0r2twvyx8zb".toList
  | Dir.s, _ => "238967debc01fg45kmstqrwxuvhjyznp".toList
  | Dir.e, 0 => "bc01fg45238967deuvhjyznpkmstqrwx".toList
  | Dir.e, _ => "p0r21436x8zb9dcf5h7kjnmqesgutwvy".toList
  | Dir.w, 0 => "238967debc01fg45kmstqrwxuvhjyznp".toList
  | Dir.w, _ => "14365h7k9dcfesgujnmqp0r2twvyx8zb".toList

/-- The `__border` lookup table of the source, indexed like `__neighbour`. -/
def __border (d : Dir) (ttype : Nat) : List Char :=
  match d, ttype with
  | Dir.n, 0 => "prxz".toList
  | Dir.n, _ => "bcfguvyz".toList
  | Dir.s, 0 => "028b".toList
  | Dir.s, _ => "0145hjnp".toList
  | Dir.e, 0 => "bcfguvyz".toList
  | Dir.e, _ => "prxz".toList
  | Dir.w, 0 => "0145hjnp".toList
  | Dir.w, _ => "028b".toList

/-- The running state of the bisection replay in `geohash_bounds`:
the four range bounds and the `even_bit` axis flag. -/
structure BState where
  evenBit : Bool
  latMin : ℚ
  latMax : ℚ
  lonMin : ℚ
  lonMax : ℚ
deriving DecidableEq, Repr

/-- One bit of the bisection replay of `geohash_bounds` (the body of the
inner `for nn` loop): narrow the current axis's range to the half selected
by the bit and flip the axis. -/
def decStep (bit : Bool) (st : BState) : BState :=
  if st.evenBit then
    let lonMid := (st.lonMin + st.lonMax) / 2
    if bit then
      { st with evenBit := false, lonMin := lonMid }
    else
      { st with evenBit := false, lonMax := lonMid }
  else
    let latMid := (st.latMin + st.latMax) / 2
    if bit then
      { st with evenBit := true, latMin := latMid }
    else
      { st with evenBit := true, latMax := latMid }

/-- The five bits `idx >> nn & 1` for `nn = 4, 3, 2, 1, 0`, as in the inner
loop of `geohash_bounds`. -/
def bits5 (idx : Nat) : List Bool :=
  [4, 3, 2, 1, 0].map (fun nn => idx.testBit nn)

/-- The character loop of `geohash_bounds`: decode each character through
`__decodemap` (failing on an out-of-alphabet character) and replay its five
bits through the bisection state. -/
def boundsChars : List Char → BState → Except GeoErr BState
  | [], st => Except.ok st
  | ch :: rest, st =>
    match __decodemap ch with
    | none => Except.error GeoErr.invalidCharacter
    | some idx => boundsChars rest ((bits5 idx).foldl (fun s b => decStep b s) st)

/-- The initial bisection state: `even_bit = True`, latitude range
`[-90, 90]`, longitude range `[-180, 180]`. -/
def initBState : BState :=
  { evenBit := true, latMin := -90, latMax := 90, lonMin := -180, lonMax := 180 }

/-- `geohash_bounds` of the source: validate non-emptiness, lower-case, then
replay every character's bits and return the SW/NE corners. -/
def geohash_bounds (geohash : List Char) : Except GeoErr Bounds :=
  if geohash = [] then Except.error GeoErr.invalidArgument
  else
    match boundsChars (geohash.map Char.toLower) initBState with
    | Except.error e => Except.error e
    | Except.ok st =>
        Except.ok { sw := { lat := st.latMin, lon := st.lonMin },
                    ne := { lat := st.latMax, lon := st.lonMax } }

/-- Computable `⌊log10 r⌋` for a positive rational, modelling the value of
`math.log(r)/math.log(10.0)` rounded down as used in `geohash_decode`. -/
def log10Floor (r : ℚ) : ℤ :=
  if 1 ≤ r then (Nat.log 10 ⌊r⌋.toNat : ℤ)
  else -(Nat.clog 10 ⌈1 / r⌉.toNat : ℤ)

/-- `⌊2 - log10 r⌋`, the per-axis digit count of `geohash_decode`
(`int(math.floor(2.0 - math.log(range)/math.log(10.0)))`). -/
def floor2SubLog10 (r : ℚ) : ℤ :=
  if (10 : ℚ) ^ log10Floor r = r then 2 - log10Floor r
  else 1 - log10Floor r

/-- Round-half-to-even of a rational to an integer, the rounding mode of
Python's built-in `round`. -/
def roundHalfEven (x : ℚ) : ℤ :=
  let f : ℤ := ⌊x⌋
  let r : ℚ := x - f
  if r < 1 / 2 then f
  else if 1 / 2 < r then f + 1
  else if 2 ∣ f then f else f + 1

/-- Python's `round(x, n)` on the exact rational model: round half to even
at `n` decimal digits (`n` may be negative, as in the source). -/
def pyRound (x : ℚ) (n : ℤ) : ℚ :=
  (roundHalfEven (x * 10 ^ n) : ℚ) / 10 ^ n

/-- `geohash_decode` of the source: the centre of the bounding box of the
cell, rounded per axis to `floor(2 - log10(range))` decimal digits. -/
def geohash_decode (geohash : List Char) : Except GeoErr Coord :=
  match geohash_bounds geohash with
  | Except.error e => Except.error e
  | Except.ok b =>
    let lat := (b.sw.lat + b.ne.lat) / 2
    let lon := (b.sw.lon + b.ne.lon) / 2
    Except.ok { lat := pyRound lat (floor2SubLog10 (b.ne.lat - b.sw.lat)),
                lon := pyRound lon (floor2SubLog10 (b.ne.lon - b.sw.lon)) }

/-- The running state of the encoding loop of `geohash_encode`: the 5-bit
accumulator `idx` plus the bisection state fields. -/
structure EncState where
  idx : Nat
  evenBit : Bool
  latMin : ℚ
  latMax : ℚ
  lonMin : ℚ
  lonMax : ℚ
deriving DecidableEq, Repr

/-- One iteration of the `while` loop of `geohash_encode` (one bit): bisect
the current axis's range around the coordinate, shift the bit into `idx`,
and flip the axis. -/
def encStep (lat lon : ℚ) (s : EncState) : EncState :=
  if s.evenBit then
    let lonMid := (s.lonMin + s.lonMax) / 2
    if lon ≥ lonMid then
      { s with idx := 2 * s.idx + 1, lonMin := lonMid, evenBit := false }
    else
      { s with idx := 2 * s.idx, lonMax := lonMid, evenBit := false }
  else
    let latMid := (s.latMin + s.latMax) / 2
    if lat ≥ latMid then
      { s with idx := 2 * s.idx + 1, latMin := latMid, evenBit := true }
    else
      { s with idx := 2 * s.idx, latMax := latMid, evenBit := true }

/-- `n` consecutive bits of the encoding loop. -/
def encSteps (lat lon : ℚ) : Nat → EncState → EncState
  | 0, s => s
  | n + 1, s => encSteps lat lon n (encStep lat lon s)

/-- The character-granularity view of the `while` loop of `geohash_encode`:
each output character is produced by exactly five bit iterations (`bit`
counts 0..5 and resets together with `idx` when a character is emitted, and
the loop condition `len(geohash) < precision` can only exit at a character
boundary). -/
def encodeChars (lat lon : ℚ) : Nat → EncState → List Char
  | 0, _ => []
  | n + 1, s =>
    let s5 := encSteps lat lon 5 s
    __base32.getD s5.idx ' ' :: encodeChars lat lon n { s5 with idx := 0 }

/-- The initial encoding state of `geohash_encode`. -/
def initEncState : EncState :=
  { idx := 0, evenBit := true, latMin := -90, latMax := 90,
    lonMin := -180, lonMax := 180 }

/-- `geohash_encode` of the source: validate the coordinate ranges (the
source checks latitude first, then longitude; both raise `ValueError`), then
run the interleaved bisection loop.  Note that the source does not validate
`precision < 1`: only `precision is None` is rejected, and a non-positive
precision simply makes the `while` loop emit no characters (a Python
negative precision behaves exactly like `0` here). -/
def geohash_encode (loc : Coord) (precision : Nat := 10) : Except GeoErr (List Char) :=
  if loc.lat < -90 ∨ loc.lat > 90 then Except.error GeoErr.invalidArgument
  else if loc.lon < -180 ∨ loc.lon > 180 then Except.error GeoErr.invalidArgument
  else Except.ok (encodeChars loc.lat loc.lon precision initEncState)

/-- The recursive core of `geohash_adjacent`, operating on an already
lower-cased geohash and a validated direction (the source re-validates and
re-lower-cases on each recursive call; both are identities there because the
parent of a non-empty lower-case string is a possibly empty lower-case
string, and an empty parent is never recursed into).  The `try/except
ValueError` of the source is modelled by the `match` on the border-table
index (a failed `index` is `none`) and by discarding an error of the
recursive call; the Python truthiness test `if border.index(last_ch) and
parent != ''` only recurses when the index is a *non-zero* number
`Nat.succ _`. -/
def adjacentLower (d : Dir) (g : List Char) : Except GeoErr (List Char) :=
  if hg : g = [] then Except.error GeoErr.invalidArgument
  else
    let last_ch := g.getLast hg
    let parent := g.dropLast
    let ttype := g.length % 2
    let parent' :=
      match List.indexOf? last_ch (__border d ttype) with
      | some (Nat.succ _) =>
        if parent = [] then parent
        else
          match adjacentLower d parent with
          | Except.ok p => p
          | Except.error _ => parent
      | _ => parent
    match List.indexOf? last_ch (__neighbour d ttype) with
    | none => Except.error GeoErr.invalidCharacter
    | some j => Except.ok (parent' ++ [__base32.getD j ' '])
termination_by g.length
decreasing_by
  simp only [List.length_dropLast]
  have := List.length_pos.mpr hg
  omega

/-- `geohash_adjacent` of the source: validate the geohash and the
one-character direction, lower-case both, and run the recursive core. -/
def geohash_adjacent (geohash : List Char) (direction : Char) : Except GeoErr (List Char) :=
  if geohash = [] then Except.error GeoErr.invalidArgument
  else
    match parseDir direction with
    | none => Except.error GeoErr.invalidArgument
    | some d => adjacentLower d (geohash.map Char.toLower)

/-- The eight compound directions accepted by `geohash_neighbour` (the value
of the already validated, lower-cased direction string). -/
inductive CDir where
  | nw : CDir
  | n : CDir
  | ne : CDir
  | w : CDir
  | e : CDir
  | sw : CDir
  | s : CDir
  | se : CDir
deriving DecidableEq, Repr

/-- `geohash_neighbour` of the source, after direction-string validation:
cardinal directions delegate to `geohash_adjacent`; diagonals compose two
cardinal steps with the north/south step first. -/
def geohash_neighbour (geohash : List Char) (direction : CDir) : Except GeoErr (List Char) :=
  if geohash = [] then Except.error GeoErr.invalidArgument
  else
    match direction with
    | CDir.nw => do geohash_adjacent (← geohash_adjacent geohash 'n') 'w'
    | CDir.n => geohash_adjacent geohash 'n'
    | CDir.ne => do geohash_adjacent (← geohash_adjacent geohash 'n') 'e'
    | CDir.w => geohash_adjacent geohash 'w'
    | CDir.e => geohash_adjacent geohash 'e'
    | CDir.sw => do geohash_adjacent (← geohash_adjacent geohash 's') 'w'
    | CDir.s => geohash_adjacent geohash 's'
    | CDir.se => do geohash_adjacent (← geohash_adjacent geohash 's') 'e'

/-- The 8-key mapping returned by `geohash_neighbours`: one field per
compound-direction key of the Python dictionary literal. -/
structure Neighbours where
  nw : List Char
  n : List Char
  ne : List Char
  w : List Char
  e : List Char
  sw : List Char
  s : List Char
  se : List Char
deriving DecidableEq, Repr

/-- `geohash_neighbours` of the source: the mapping of all eight compound
directions to the corresponding neighbour cell (any exception raised while
building a value propagates to the caller). -/
def geohash_neighbours (geohash : List Char) : Except GeoErr Neighbours := do
  let vnw ← geohash_neighbour geohash CDir.nw
  let vn ← geohash_neighbour geohash CDir.n
  let vne ← geohash_neighbour geohash CDir.ne
  let vw ← geohash_neighbour geohash CDir.w
  let ve ← geohash_neighbour geohash CDir.e
  let vsw ← geohash_neighbour geohash CDir.sw
  let vs ← geohash_neighbour geohash CDir.s
  let vse ← geohash_neighbour geohash CDir.se
  pure { nw := vnw, n := vn, ne := vne, w := vw, e := ve,
         sw := vsw, s := vs, se := vse }

/-! ### Helper notions for reasoning about the adjacency engine -/

/-- The opposite cardinal direction. -/
def dopp : Dir → Dir
  | Dir.n => Dir.s
  | Dir.s => Dir.n
  | Dir.e => Dir.w
  | Dir.w => Dir.e

/-- The lower-case direction character corresponding to a `Dir`. -/
def dirToChar : Dir → Char
  | Dir.n => 'n'
  | Dir.s => 's'
  | Dir.e => 'e'
  | Dir.w => 'w'

/-- The action of one adjacency step on the last character: position of the
character in the neighbour-table string, mapped through the alphabet
(`__base32[__neighbour[direction][ttype].index(last_ch)]`); `none` when the
`index` call raises. -/
def pchar (d : Dir) (t : Nat) (c : Char) : Option Char :=
  (List.indexOf? c (__neighbour d t)).map (fun j => __base32.getD j ' ')

/-- Whether the Python truthiness test `__border[direction][ttype].index(last_ch)`
succeeds with a non-zero (truthy) result: exactly then does the source
recurse into the parent. -/
def btruthy (d : Dir) (t : Nat) (c : Char) : Bool :=
  match List.indexOf? c (__border d t) with
  | some (Nat.succ _) => true
  | _ => false

/-- Unfolding of `adjacentLower` at a geohash written as `parent ++ [last]`. -/
theorem adjacentLower_concat (d : Dir) (p : List Char) (c : Char) :
    adjacentLower d (p ++ [c]) =
      (match List.indexOf? c (__neighbour d ((p.length + 1) % 2)) with
       | none => Except.error GeoErr.invalidCharacter
       | some j =>
         Except.ok
           ((match List.indexOf? c (__border d ((p.length + 1) % 2)) with
             | some (Nat.succ _) =>
               if p = [] then p
               else
                 match adjacentLower d p with
                 | Except.ok q => q
                 | Except.error _ => p
             | _ => p) ++ [__base32.getD j ' '])) := by
  have hne : p ++ [c] ≠ [] := by simp
  rw [adjacentLower]
  rw [dif_neg hne]
  simp only [List.getLast_concat, List.dropLast_concat, List.length_append,
    List.length_cons, List.length_nil, List.length_singleton, Nat.zero_add]

/-- Alphabet characters are already lower-case. -/
theorem base32_toLower : ∀ c ∈ __base32, c.toLower = c := by decide

/-- Upper-casing then lower-casing an alphabet character gives it back. -/
theorem base32_upper_toLower : ∀ c ∈ __base32, c.toUpper.toLower = c := by decide

/-- Lower-casing is the identity on strings over the alphabet. -/
theorem map_toLower_base32 : ∀ (g : List Char), (∀ c ∈ g, c ∈ __base32) →
    g.map Char.toLower = g := by
  intro g hg
  induction g with
  | nil => rfl
  | cons a l ih =>
    have ha := base32_toLower a (hg a (by simp))
    have hl := ih (fun c hc => hg c (by simp [hc]))
    simp [ha, hl]

/-- Every character of every neighbour-table string is in the alphabet. -/
theorem neighbour_subset_base32 :
    ∀ (d : Dir) (t : Fin 2), ∀ c ∈ __neighbour d t.val, c ∈ __base32 := by decide

/-- For an alphabet character, the neighbour-table lookup of one adjacency
step succeeds and its result is again an alphabet character. -/
theorem pchar_isSome_mem : ∀ (d : Dir) (t : Fin 2), ∀ c ∈ __base32,
    (pchar d t.val c).isSome = true ∧ ((pchar d t.val c).getD ' ') ∈ __base32 := by
  decide

/-- Stepping in a direction and then in the opposite direction restores the
last character, for either parity. -/
theorem pchar_roundtrip : ∀ (d : Dir) (t : Fin 2), ∀ c ∈ __base32,
    pchar (dopp d) t.val ((pchar d t.val c).getD ' ') = some c := by
  decide

/-- One adjacency step maps characters on which the (truthy) border test
fires in direction `d` exactly to characters on which it fires in the
opposite direction, so the parent recursions of the two steps agree. -/
theorem btruthy_roundtrip : ∀ (d : Dir) (t : Fin 2), ∀ c ∈ __base32,
    btruthy (dopp d) t.val ((pchar d t.val c).getD ' ') = btruthy d t.val c := by
  decide

/-- On a non-empty geohash over the alphabet, the adjacency core succeeds
and returns a string of the same length, again over the alphabet. -/
theorem adjacentLower_spec (d : Dir) :
    ∀ (g : List Char), g ≠ [] → (∀ c ∈ g, c ∈ __base32) →
      ∃ g', adjacentLower d g = Except.ok g' ∧ g'.length = g.length ∧
        ∀ c ∈ g', c ∈ __base32 := by
  intro g
  induction g using List.reverseRecOn with
  | nil => intro h; exact absurd rfl h
  | append_singleton p c ih =>
    intro _ halpha
    have hc : c ∈ __base32 := halpha c (by simp)
    have hp : ∀ x ∈ p, x ∈ __base32 := fun x hx => halpha x (by simp [hx])
    have ht2 : (p.length + 1) % 2 < 2 := Nat.mod_lt _ (by omega)
    have hpc := pchar_isSome_mem d ⟨(p.length + 1) % 2, ht2⟩ c hc
    obtain ⟨c', hc'⟩ : ∃ c', pchar d ((p.length + 1) % 2) c = some c' :=
      Option.isSome_iff_exists.mp hpc.1
    have hc'mem : c' ∈ __base32 := by
      have := hpc.2
      rwa [hc', Option.getD_some] at this
    rw [adjacentLower_concat]
    simp only [pchar] at hc'
    rcases hn : List.indexOf? c (__neighbour d ((p.length + 1) % 2)) with _ | j
    · rw [hn] at hc'; simp at hc'
    · rw [hn] at hc'
      simp only [Option.map_some'] at hc'
      rcases hb : List.indexOf? c (__border d ((p.length + 1) % 2)) with _ | k
      · refine ⟨p ++ [__base32.getD j ' '], ?_, ?_, ?_⟩
        · simp only [hb, hn]
        · simp
        · intro x hx
          rcases List.mem_append.mp hx with h | h
          · exact hp x h
          · simp only [List.mem_singleton] at h
            subst h
            injection hc' with h'
            rw [h']
            exact hc'mem
      · cases k with
        | zero =>
          refine ⟨p ++ [__base32.getD j ' '], ?_, by simp, ?_⟩
          · simp only [hb, hn]
          · intro x hx
            rcases List.mem_append.mp hx with h | h
            · exact hp x h
            · simp only [List.mem_singleton] at h
              subst h
              have : (some (__base32.getD j ' ') : Option Char) = some c' := hc'
              injection this with h'
              rw [h']
              exact hc'mem
        | succ k =>
          by_cases hpe : p = []
          · subst hpe
            refine ⟨[] ++ [__base32.getD j ' '], ?_, by simp, ?_⟩
            · simp only [hb, hn]
              simp
            · intro x hx
              simp only [List.nil_append, List.mem_singleton] at hx
              subst hx
              have : (some (__base32.getD j ' ') : Option Char) = some c' := hc'
              injection this with h'
              rw [h']
              exact hc'mem
          · obtain ⟨q, hq, hqlen, hqmem⟩ := ih hpe hp
            refine ⟨q ++ [__base32.getD j ' '], ?_, by simp [hqlen], ?_⟩
            · simp only [hb, hn, hq, if_neg hpe]
            · intro x hx
              rcases List.mem_append.mp hx with h | h
              · exact hqmem x h
              · simp only [List.mem_singleton] at h
                subst h
                have : (some (__base32.getD j ' ') : Option Char) = some c' := hc'
                injection this with h'
                rw [h']
                exact hc'mem

/-- Stepping to the adjacent cell in a direction and then stepping back in
the opposite direction restores the original geohash, for every non-empty
geohash over the alphabet. -/
theorem adjacentLower_roundtrip (d : Dir) :
    ∀ (g : List Char), g ≠ [] → (∀ c ∈ g, c ∈ __base32) →
      ∀ g', adjacentLower d g = Except.ok g' →
        adjacentLower (dopp d) g' = Except.ok g := by
  intro g
  induction g using List.reverseRecOn with
  | nil => intro h; exact absurd rfl h
  | append_singleton p c ih =>
    intro _ halpha g' hadj
    have hc : c ∈ __base32 := halpha c (by simp)
    have hp : ∀ x ∈ p, x ∈ __base32 := fun x hx => halpha x (by simp [hx])
    have ht2 : (p.length + 1) % 2 < 2 := Nat.mod_lt _ (by omega)
    have hpc := pchar_isSome_mem d ⟨(p.length + 1) % 2, ht2⟩ c hc
    obtain ⟨c', hc'⟩ : ∃ c', pchar d ((p.length + 1) % 2) c = some c' :=
      Option.isSome_iff_exists.mp hpc.1
    have hgetD : (pchar d ((p.length + 1) % 2) c).getD ' ' = c' := by
      rw [hc']; rfl
    have hc'mem : c' ∈ __base32 := by rw [← hgetD]; exact hpc.2
    have hback : pchar (dopp d) ((p.length + 1) % 2) c' = some c := by
      have := pchar_roundtrip d ⟨(p.length + 1) % 2, ht2⟩ c hc
      rwa [hgetD] at this
    have hbt : btruthy (dopp d) ((p.length + 1) % 2) c' =
        btruthy d ((p.length + 1) % 2) c := by
      have := btruthy_roundtrip d ⟨(p.length + 1) % 2, ht2⟩ c hc
      rwa [hgetD] at this
    obtain ⟨j2, hn2, hj2⟩ : ∃ j2,
        List.indexOf? c' (__neighbour (dopp d) ((p.length + 1) % 2)) = some j2 ∧
          __base32.getD j2 ' ' = c := by
      simp only [pchar] at hback
      rcases h2 : List.indexOf? c' (__neighbour (dopp d) ((p.length + 1) % 2)) with _ | j2
      · rw [h2] at hback; simp at hback
      · rw [h2] at hback
        simp only [Option.map_some'] at hback
        injection hback with h'
        exact ⟨j2, rfl, h'⟩
    rw [adjacentLower_concat] at hadj
    simp only [pchar] at hc'
    rcases hn : List.indexOf? c (__neighbour d ((p.length + 1) % 2)) with _ | j
    · rw [hn] at hc'; simp at hc'
    · rw [hn] at hc'
      simp only [Option.map_some'] at hc'
      injection hc' with hc'eq
      rw [hn] at hadj
      rcases hb : List.indexOf? c (__border d ((p.length + 1) % 2)) with _ | k
      · -- the border-table lookup raised `ValueError`: no parent recursion
        have hbtc : btruthy d ((p.length + 1) % 2) c = false := by
          simp [btruthy, hb]
        simp only [hb] at hadj
        injection hadj with hg'
        subst hg'
        rw [hc'eq, adjacentLower_concat]
        rcases hb2 : List.indexOf? c' (__border (dopp d) ((p.length + 1) % 2)) with _ | k2
        · simp only [hb2, hn2, hj2]
        · cases k2 with
          | zero => simp only [hb2, hn2, hj2]
          | succ k2 =>
            exfalso
            rw [hbtc] at hbt
            simp [btruthy, hb2] at hbt
      · cases k with
        | zero =>
          -- border index 0 is falsy: no parent recursion
          have hbtc : btruthy d ((p.length + 1) % 2) c = false := by
            simp [btruthy, hb]
          simp only [hb] at hadj
          injection hadj with hg'
          subst hg'
          rw [hc'eq, adjacentLower_concat]
          rcases hb2 : List.indexOf? c' (__border (dopp d) ((p.length + 1) % 2)) with _ | k2
          · simp only [hb2, hn2, hj2]
          · cases k2 with
            | zero => simp only [hb2, hn2, hj2]
            | succ k2 =>
              exfalso
              rw [hbtc] at hbt
              simp [btruthy, hb2] at hbt
        | succ k =>
          have hbtc : btruthy d ((p.length + 1) % 2) c = true := by
            simp [btruthy, hb]
          by_cases hpe : p = []
          · -- at the top-level cell the recursion stops regardless
            subst hpe
            simp only [hb, if_true, eq_self_iff_true, ite_true] at hadj
            injection hadj with hg'
            subst hg'
            rw [hc'eq]
            rw [adjacentLower_concat]
            rcases hb2 : List.indexOf? c'
                (__border (dopp d) ((([] : List Char).length + 1) % 2)) with _ | k2
            · simp only [hb2, hn2, hj2]
            · cases k2 with
              | zero => simp only [hb2, hn2, hj2]
              | succ k2 =>
                simp only [hb2, if_true, eq_self_iff_true, ite_true, hn2, hj2]
          · -- the adjacency ripples into the parent on both steps
            obtain ⟨q, hq, hqlen, hqmem⟩ := adjacentLower_spec d p hpe hp
            simp only [hb, if_neg hpe, hq] at hadj
            injection hadj with hg'
            subst hg'
            have hqne : q ≠ [] := by
              intro h
              rw [h] at hqlen
              exact hpe (List.length_eq_zero.mp hqlen.symm)
            have hrec : adjacentLower (dopp d) q = Except.ok p := ih hpe hp q hq
            rw [hc'eq, adjacentLower_concat]
            simp only [hqlen]
            rcases hb2 : List.indexOf? c' (__border (dopp d) ((p.length + 1) % 2)) with _ | k2
            · exfalso
              rw [hbtc] at hbt
              simp [btruthy, hb2] at hbt
            · cases k2 with
              | zero =>
                exfalso
                rw [hbtc] at hbt
                simp [btruthy, hb2] at hbt
              | succ k2 =>
                simp only [hb2, if_neg hqne, hrec, hn2, hj2]

/-- On a non-empty geohash that is already over the (lower-case) alphabet,
the `geohash_adjacent` wrapper reduces to the core on a validated direction. -/
theorem geohash_adjacent_eq_core (g : List Char) (hne : g ≠ [])
    (halpha : ∀ c ∈ g, c ∈ __base32) (dc : Char) (d : Dir)
    (hdc : parseDir dc = some d) :
    geohash_adjacent g dc = adjacentLower d g := by
  unfold geohash_adjacent
  rw [if_neg hne, hdc, map_toLower_base32 g halpha]

/-- The geohash denotes a cell strictly inside the globe rectangle: its
bounding box touches neither the pole rows (latitude ±90) nor the
antimeridian column (longitude ±180). -/
def AwayFromEdges (g : List Char) : Prop :=
  match geohash_bounds g with
  | Except.ok b => -90 < b.sw.lat ∧ b.ne.lat < 90 ∧ -180 < b.sw.lon ∧ b.ne.lon < 180
  | Except.error _ => False

/-- C2: For every valid geohash denoting an interior cell away from the pole
rows and the antimeridian column, stepping to the adjacent cell in any
cardinal direction and then stepping back in the opposite direction returns
the original geohash; the quantification over `d` covers both orders of
each of the two opposite pairs (N/S, S/N, E/W, W/E). -/
theorem adjacent_roundtrip_interior (g : List Char) (hne : g ≠ [])
    (halpha : ∀ c ∈ g, c ∈ __base32) (_hint : AwayFromEdges g) :
    ∀ d : Dir, ∃ g', geohash_adjacent g (dirToChar d) = Except.ok g' ∧
      geohash_adjacent g' (dirToChar (dopp d)) = Except.ok g := by
  intro d
  obtain ⟨g', hok, hlen, hmem⟩ := adjacentLower_spec d g hne halpha
  have hg'ne : g' ≠ [] := by
    intro h
    rw [h] at hlen
    exact hne (List.length_eq_zero.mp hlen.symm)
  have hpd : ∀ d' : Dir, parseDir (dirToChar d') = some d' := by decide
  refine ⟨g', ?_, ?_⟩
  · rw [geohash_adjacent_eq_core g hne halpha _ d (hpd d)]
    exact hok
  · rw [geohash_adjacent_eq_core g' hg'ne hmem _ (dopp d) (hpd (dopp d))]
    exact adjacentLower_roundtrip d g hne halpha g' hok

/-- Witness for C2 at the interior geohash `"s"` (cell latitude `[0, 45]`,
longitude `[0, 45]`), stepping north and back south. -/
theorem adjacent_roundtrip_interior_witness :
    ("s".toList ≠ [] ∧ (∀ c ∈ "s".toList, c ∈ __base32) ∧ AwayFromEdges "s".toList) ∧
    (∃ g', geohash_adjacent "s".toList (dirToChar Dir.n) = Except.ok g' ∧
      geohash_adjacent g' (dirToChar (dopp Dir.n)) = Except.ok "s".toList) := by
  have h1 : "s".toList ≠ [] := by decide
  have h2 : ∀ c ∈ "s".toList, c ∈ __base32 := by decide
  have h3 : AwayFromEdges "s".toList := by
    have hlow : ("s".toList.map Char.toLower) = "s".toList := by decide
    unfold AwayFromEdges
    rw [geohash_bounds]
    rw [if_neg (by decide : ¬ ("s".toList = []))]
    rw [hlow]
    have hdm : __decodemap 's' = some 24 := by decide
    have hb4 : Nat.testBit 24 4 = true := by decide
    have hb3 : Nat.testBit 24 3 = true := by decide
    have hb2' : Nat.testBit 24 2 = false := by decide
    have hb1 : Nat.testBit 24 1 = false := by decide
    have hb0 : Nat.testBit 24 0 = false := by decide
    simp only [boundsChars, hdm, bits5, List.map, List.foldl, hb4, hb3, hb2', hb1, hb0]
    norm_num [decStep, initBState]
  exact ⟨⟨h1, h2, h3⟩, adjacent_roundtrip_interior "s".toList h1 h2 h3 Dir.n⟩

/-- C3: On the concrete geohash `"sr2yk3bsm"` the adjacency operation
returns `"sr2yk3bst"` for north, `"sr2yk3bsj"` for south, `"sr2yk3bsk"` for
west and `"sr2yk3bsq"` for east, exactly as the specification states. -/
theorem adjacent_concrete_sr2yk3bsm :
    geohash_adjacent "sr2yk3bsm".toList 'n' = Except.ok "sr2yk3bst".toList ∧
    geohash_adjacent "sr2yk3bsm".toList 's' = Except.ok "sr2yk3bsj".toList ∧
    geohash_adjacent "sr2yk3bsm".toList 'w' = Except.ok "sr2yk3bsk".toList ∧
    geohash_adjacent "sr2yk3bsm".toList 'e' = Except.ok "sr2yk3bsq".toList := by
  have hsplit : "sr2yk3bsm".toList = "sr2yk3bs".toList ++ ['m'] := by decide
  refine ⟨?_, ?_, ?_, ?_⟩
  · rw [geohash_adjacent_eq_core _ (by decide) (by decide) 'n' Dir.n (by decide)]
    rw [hsplit, adjacentLower_concat]
    rfl
  · rw [geohash_adjacent_eq_core _ (by decide) (by decide) 's' Dir.s (by decide)]
    rw [hsplit, adjacentLower_concat]
    rfl
  · rw [geohash_adjacent_eq_core _ (by decide) (by decide) 'w' Dir.w (by decide)]
    rw [hsplit, adjacentLower_concat]
    rfl
  · rw [geohash_adjacent_eq_core _ (by decide) (by decide) 'e' Dir.e (by decide)]
    rw [hsplit, adjacentLower_concat]
    rfl

/-- C1 (failing input): `"ep"` has even length, so its parity row is 0, and
its last character `'p'` is a member of the border-table entry
`__border n 0 = "prxz"`; the claim therefore requires the result prefix to
be `adjacent("e", n) = "g"`, i.e. the result `"g0"`.  The code instead
returns `"e0"`, keeping the parent unchanged: `'p'` sits at *index 0* of the
border string, and the Python truthiness test
`if __border[dir][t].index(last) and parent != ''` treats that 0 as false
and skips the parent recursion. -/
theorem adjacent_border_index_zero_bug :
    ('p' ∈ __border Dir.n ("ep".toList.length % 2)) ∧
    geohash_adjacent "ep".toList 'n' = Except.ok "e0".toList ∧
    geohash_adjacent "e".toList 'n' = Except.ok "g".toList ∧
    "e0".toList ≠ "g".toList ++ ['0'] := by
  refine ⟨by decide, ?_, ?_, by decide⟩
  · rw [geohash_adjacent_eq_core _ (by decide) (by decide) 'n' Dir.n (by decide)]
    have hsplit : "ep".toList = "e".toList ++ ['p'] := by decide
    rw [hsplit, adjacentLower_concat]
    rfl
  · rw [geohash_adjacent_eq_core _ (by decide) (by decide) 'n' Dir.n (by decide)]
    have hsplit : "e".toList = ([] : List Char) ++ ['e'] := by decide
    rw [hsplit, adjacentLower_concat]
    rfl

/-! ### Helper lemmas about the bounds decoder -/

/-- The decode map misses exactly the characters outside the alphabet. -/
theorem decodemap_eq_none (c : Char) : __decodemap c = none ↔ c ∉ __base32 := by
  rw [__decodemap, List.indexOf?_eq_none_iff]
  constructor
  · intro h hc
    exact absurd (beq_iff_eq.mpr rfl) (h c hc)
  · intro h x hx hbeq
    exact h (beq_iff_eq.mp hbeq ▸ hx)

/-- An alphabet character decodes to some index. -/
theorem decodemap_isSome (c : Char) (hc : c ∈ __base32) :
    ∃ idx, __decodemap c = some idx := by
  rcases h : __decodemap c with _ | idx
  · exact absurd ((decodemap_eq_none c).mp h) (not_not_intro hc)
  · exact ⟨idx, rfl⟩

/-- The character loop of the bounds decoder fails with `invalidCharacter`
as soon as the list contains any out-of-alphabet character. -/
theorem boundsChars_error :
    ∀ (chars : List Char) (st : BState), (∃ c ∈ chars, __decodemap c = none) →
      boundsChars chars st = Except.error GeoErr.invalidCharacter := by
  intro chars
  induction chars with
  | nil => intro st h; simp at h
  | cons a rest ih =>
    intro st h
    rcases hda : __decodemap a with _ | idx
    · simp [boundsChars, hda]
    · obtain ⟨c, hc, hcn⟩ := h
      rcases List.mem_cons.mp hc with rfl | hmem
      · rw [hda] at hcn; cases hcn
      · simp only [boundsChars, hda]
        exact ih _ ⟨c, hmem, hcn⟩

/-- The character loop of the bounds decoder succeeds on any list of
alphabet characters. -/
theorem boundsChars_ok :
    ∀ (chars : List Char) (st : BState), (∀ c ∈ chars, c ∈ __base32) →
      ∃ st', boundsChars chars st = Except.ok st' := by
  intro chars
  induction chars with
  | nil => intro st _; exact ⟨st, rfl⟩
  | cons a rest ih =>
    intro st h
    obtain ⟨idx, hda⟩ := decodemap_isSome a (h a (by simp))
    obtain ⟨st', hst'⟩ := ih ((bits5 idx).foldl (fun s b => decStep b s) st)
      (fun c hc => h c (by simp [hc]))
    exact ⟨st', by simp only [boundsChars, hda]; exact hst'⟩

/-- One replay bit keeps each axis's lower bound at or below its upper
bound. -/
theorem decStep_order (b : Bool) (st : BState)
    (h1 : st.latMin ≤ st.latMax) (h2 : st.lonMin ≤ st.lonMax) :
    (decStep b st).latMin ≤ (decStep b st).latMax ∧
      (decStep b st).lonMin ≤ (decStep b st).lonMax := by
  unfold decStep
  split_ifs <;> constructor <;> simp <;> linarith

/-- Folding replay bits preserves the axis ordering invariant. -/
theorem foldl_decStep_order :
    ∀ (bs : List Bool) (st : BState),
      st.latMin ≤ st.latMax → st.lonMin ≤ st.lonMax →
      (bs.foldl (fun s b => decStep b s) st).latMin ≤
          (bs.foldl (fun s b => decStep b s) st).latMax ∧
        (bs.foldl (fun s b => decStep b s) st).lonMin ≤
          (bs.foldl (fun s b => decStep b s) st).lonMax := by
  intro bs
  induction bs with
  | nil => intro st h1 h2; exact ⟨h1, h2⟩
  | cons b rest ih =>
    intro st h1 h2
    obtain ⟨h1', h2'⟩ := decStep_order b st h1 h2
    exact ih (decStep b st) h1' h2'

/-- The character loop preserves the axis ordering invariant. -/
theorem boundsChars_order :
    ∀ (chars : List Char) (st st' : BState),
      boundsChars chars st = Except.ok st' →
      st.latMin ≤ st.latMax → st.lonMin ≤ st.lonMax →
      st'.latMin ≤ st'.latMax ∧ st'.lonMin ≤ st'.lonMax := by
  intro chars
  induction chars with
  | nil =>
    intro st st' hok h1 h2
    injection hok with h
    subst h
    exact ⟨h1, h2⟩
  | cons a rest ih =>
    intro st st' hok h1 h2
    rcases hda : __decodemap a with _ | idx
    · rw [boundsChars, hda] at hok; cases hok
    · rw [boundsChars, hda] at hok
      obtain ⟨h1', h2'⟩ := foldl_decStep_order (bits5 idx) st h1 h2
      exact ih _ st' hok h1' h2'

/-- C8: On every non-empty geohash over the alphabet, `geohash_bounds`
succeeds and returns a box whose south-west corner lies at or below/left of
its north-east corner on both axes. -/
theorem bounds_sw_le_ne (g : List Char) (hne : g ≠ [])
    (halpha : ∀ c ∈ g, c ∈ __base32) :
    ∃ b, geohash_bounds g = Except.ok b ∧
      b.sw.lat ≤ b.ne.lat ∧ b.sw.lon ≤ b.ne.lon := by
  have hlow : g.map Char.toLower = g := map_toLower_base32 g halpha
  obtain ⟨st', hst'⟩ := boundsChars_ok g initBState halpha
  obtain ⟨ho1, ho2⟩ := boundsChars_order g initBState st' hst'
    (by norm_num [initBState]) (by norm_num [initBState])
  refine ⟨{ sw := { lat := st'.latMin, lon := st'.lonMin },
            ne := { lat := st'.latMax, lon := st'.lonMax } }, ?_, ho1, ho2⟩
  rw [geohash_bounds, if_neg hne, hlow, hst']

/-- Witness for C8 at the geohash `"s7"`. -/
theorem bounds_sw_le_ne_witness :
    ("s7".toList ≠ [] ∧ (∀ c ∈ "s7".toList, c ∈ __base32)) ∧
    (∃ b, geohash_bounds "s7".toList = Except.ok b ∧
      b.sw.lat ≤ b.ne.lat ∧ b.sw.lon ≤ b.ne.lon) :=
  ⟨⟨by decide, by decide⟩, bounds_sw_le_ne "s7".toList (by decide) (by decide)⟩

/-- C5 (amended): an out-of-alphabet symbol anywhere in the input makes
`geohash_bounds` and `geohash_decode` fail with `invalidCharacter`; for
`geohash_adjacent` this holds when the out-of-alphabet symbol is the *final*
character (symbols being "in the alphabet" up to the lower-casing that every
operation applies first).  An out-of-alphabet symbol confined to the prefix
does not make `geohash_adjacent` fail, because the `try/except ValueError`
around the parent recursion silently swallows the lookup error — see the
counterexample. -/
theorem invalid_char_handling (g : List Char) (hne : g ≠ [])
    (hbad : ∃ c ∈ g, c.toLower ∉ __base32) :
    geohash_bounds g = Except.error GeoErr.invalidCharacter ∧
    geohash_decode g = Except.error GeoErr.invalidCharacter ∧
    ((g.getLast hne).toLower ∉ __base32 →
      ∀ (dc : Char) (d : Dir), parseDir dc = some d →
        geohash_adjacent g dc = Except.error GeoErr.invalidCharacter) := by
  obtain ⟨c, hcg, hcl⟩ := hbad
  have hmem : c.toLower ∈ g.map Char.toLower := List.mem_map_of_mem _ hcg
  have hb : geohash_bounds g = Except.error GeoErr.invalidCharacter := by
    rw [geohash_bounds, if_neg hne,
      boundsChars_error _ _ ⟨c.toLower, hmem, (decodemap_eq_none _).mpr hcl⟩]
  refine ⟨hb, ?_, ?_⟩
  · rw [geohash_decode, hb]
  · intro hlast dc d hdc
    unfold geohash_adjacent
    rw [if_neg hne]
    simp only [hdc]
    conv_lhs => rw [← List.dropLast_append_getLast hne]
    rw [List.map_append]
    simp only [List.map_cons, List.map_nil]
    rw [adjacentLower_concat]
    have hnone : List.indexOf? (g.getLast hne).toLower
        (__neighbour d (((g.dropLast.map Char.toLower).length + 1) % 2)) = none := by
      rw [List.indexOf?_eq_none_iff]
      intro x hx hbeq
      have hx32 : x ∈ __base32 :=
        neighbour_subset_base32 d
          ⟨((g.dropLast.map Char.toLower).length + 1) % 2, Nat.mod_lt _ (by omega)⟩ x hx
      exact hlast (beq_iff_eq.mp hbeq ▸ hx32)
    simp only [hnone]

/-- Witness for the amended C5 at the input `"1!"`, whose final character
`'!'` is outside the alphabet. -/
theorem invalid_char_handling_witness :
    ("1!".toList ≠ [] ∧ (∃ c ∈ "1!".toList, c.toLower ∉ __base32)) ∧
    (geohash_bounds "1!".toList = Except.error GeoErr.invalidCharacter ∧
     geohash_decode "1!".toList = Except.error GeoErr.invalidCharacter ∧
     geohash_adjacent "1!".toList 'n' = Except.error GeoErr.invalidCharacter) := by
  have h1 : "1!".toList ≠ [] := by decide
  have h2 : ∃ c ∈ "1!".toList, c.toLower ∉ __base32 := ⟨'!', by decide, by decide⟩
  have h3 := invalid_char_handling "1!".toList h1 h2
  have hg : "1!".toList.getLast h1 = '!' := rfl
  exact ⟨⟨h1, h2⟩, h3.1, h3.2.1,
    h3.2.2 (by rw [hg]; decide) 'n' Dir.n (by decide)⟩

/-- Counterexample to C5 as stated: the input `"!1"` contains the
out-of-alphabet symbol `'!'`, yet `geohash_adjacent` returns the normal
result `"!4"` instead of failing (the border lookup error for `'!'` is
swallowed); and the input `"B"` consists of a symbol outside the (purely
lower-case) 32-character alphabet, yet `geohash_bounds` succeeds because the
operation lower-cases its input first. -/
theorem invalid_char_claim_counterexample :
    ('!' ∈ (['!', '1'] : List Char) ∧ '!' ∉ __base32 ∧
      geohash_adjacent ['!', '1'] 'n' = Except.ok ['!', '4']) ∧
    ('B' ∉ __base32 ∧ ∃ b, geohash_bounds ['B'] = Except.ok b) := by
  refine ⟨⟨by decide, by decide, ?_⟩, by decide, ?_⟩
  · unfold geohash_adjacent
    rw [if_neg (by decide : ¬ ((['!', '1'] : List Char) = []))]
    have hpd : parseDir 'n' = some Dir.n := by decide
    simp only [hpd]
    have h1 : ((['!', '1'] : List Char).map Char.toLower) = ['!', '1'] := by decide
    rw [h1]
    have hsplit : (['!', '1'] : List Char) = ['!'] ++ ['1'] := by decide
    rw [hsplit, adjacentLower_concat]
    rfl
  · have hlow : ((['B'] : List Char).map Char.toLower) = ['b'] := by decide
    obtain ⟨st', hst'⟩ := boundsChars_ok ['b'] initBState (by decide)
    exact ⟨_, by rw [geohash_bounds, if_neg (by decide : ¬ ((['B'] : List Char) = [])),
      hlow, hst']⟩

/-- Reduction lemma: binding a successful `Except` computation. -/
theorem except_bind_ok {α β : Type} (a : α) (f : α → Except GeoErr β) :
    (Except.ok a >>= f) = f a := rfl

/-- Reduction lemma: `pure` of the `Except` monad is `Except.ok`. -/
theorem except_pure_eq_ok {α : Type} (a : α) :
    (pure a : Except GeoErr α) = Except.ok a := rfl

/-- On a valid input, `geohash_adjacent` succeeds with a non-empty result of
the same length over the alphabet. -/
theorem geohash_adjacent_ok (g : List Char) (hne : g ≠ [])
    (halpha : ∀ c ∈ g, c ∈ __base32) (dc : Char) (d : Dir)
    (hdc : parseDir dc = some d) :
    ∃ g', geohash_adjacent g dc = Except.ok g' ∧ g'.length = g.length ∧
      (∀ c ∈ g', c ∈ __base32) ∧ g' ≠ [] := by
  obtain ⟨g', h1, h2, h3⟩ := adjacentLower_spec d g hne halpha
  refine ⟨g', ?_, h2, h3, ?_⟩
  · rw [geohash_adjacent_eq_core g hne halpha dc d hdc]
    exact h1
  · intro h
    rw [h] at h2
    exact hne (List.length_eq_zero.mp h2.symm)

/-- C9: On every non-empty geohash over the alphabet, `geohash_neighbours`
succeeds and returns the mapping with its 8 distinct direction keys
(the 8 fields of `Neighbours`), every value a string of the same length as
the input. -/
theorem neighbours_spec (g : List Char) (hne : g ≠ [])
    (halpha : ∀ c ∈ g, c ∈ __base32) :
    ∃ m : Neighbours, geohash_neighbours g = Except.ok m ∧
      m.nw.length = g.length ∧ m.n.length = g.length ∧ m.ne.length = g.length ∧
      m.w.length = g.length ∧ m.e.length = g.length ∧ m.sw.length = g.length ∧
      m.s.length = g.length ∧ m.se.length = g.length := by
  obtain ⟨vn, hvn, hvnlen, hvnal, hvnne⟩ :=
    geohash_adjacent_ok g hne halpha 'n' Dir.n (by decide)
  obtain ⟨vs, hvs, hvslen, hvsal, hvsne⟩ :=
    geohash_adjacent_ok g hne halpha 's' Dir.s (by decide)
  obtain ⟨vw, hvw, hvwlen, _, _⟩ :=
    geohash_adjacent_ok g hne halpha 'w' Dir.w (by decide)
  obtain ⟨ve, hve, hvelen, _, _⟩ :=
    geohash_adjacent_ok g hne halpha 'e' Dir.e (by decide)
  obtain ⟨vnw, hvnw, hvnwlen, _, _⟩ :=
    geohash_adjacent_ok vn hvnne hvnal 'w' Dir.w (by decide)
  obtain ⟨vne, hvne, hvnelen, _, _⟩ :=
    geohash_adjacent_ok vn hvnne hvnal 'e' Dir.e (by decide)
  obtain ⟨vsw, hvsw, hvswlen, _, _⟩ :=
    geohash_adjacent_ok vs hvsne hvsal 'w' Dir.w (by decide)
  obtain ⟨vse, hvse, hvselen, _, _⟩ :=
    geohash_adjacent_ok vs hvsne hvsal 'e' Dir.e (by decide)
  refine ⟨{ nw := vnw, n := vn, ne := vne, w := vw, e := ve,
            sw := vsw, s := vs, se := vse }, ?_,
    hvnwlen.trans hvnlen, hvnlen, hvnelen.trans hvnlen, hvwlen, hvelen,
    hvswlen.trans hvslen, hvslen, hvselen.trans hvslen⟩
  simp only [geohash_neighbours, geohash_neighbour, if_neg hne,
    hvn, hvs, hvw, hve, except_bind_ok, hvnw, hvne, hvsw, hvse,
    except_pure_eq_ok]

/-- Witness for C9 at the geohash `"sr2yk3bsm"`. -/
theorem neighbours_spec_witness :
    ("sr2yk3bsm".toList ≠ [] ∧ (∀ c ∈ "sr2yk3bsm".toList, c ∈ __base32)) ∧
    (∃ m : Neighbours, geohash_neighbours "sr2yk3bsm".toList = Except.ok m ∧
      m.nw.length = "sr2yk3bsm".toList.length ∧
      m.n.length = "sr2yk3bsm".toList.length ∧
      m.ne.length = "sr2yk3bsm".toList.length ∧
      m.w.length = "sr2yk3bsm".toList.length ∧
      m.e.length = "sr2yk3bsm".toList.length ∧
      m.sw.length = "sr2yk3bsm".toList.length ∧
      m.s.length = "sr2yk3bsm".toList.length ∧
      m.se.length = "sr2yk3bsm".toList.length) :=
  ⟨⟨by decide, by decide⟩,
    neighbours_spec "sr2yk3bsm".toList (by decide) (by decide)⟩

/-- Upper-casing then lower-casing is the identity on strings over the
alphabet. -/
theorem map_upper_lower_base32 : ∀ (g : List Char), (∀ c ∈ g, c ∈ __base32) →
    (g.map Char.toUpper).map Char.toLower = g := by
  intro g hg
  induction g with
  | nil => rfl
  | cons a l ih =>
    have ha := base32_upper_toLower a (hg a (by simp))
    have hl := ih (fun c hc => hg c (by simp [hc]))
    simp only [List.map_cons, ha, hl]

/-- C10: The public operations are case-insensitive: on a non-empty geohash
over the alphabet, `geohash_bounds`, `geohash_decode` and `geohash_adjacent`
applied to the upper-cased input (and, for `geohash_adjacent`, also the
upper-cased direction) return exactly the results of the lower-case
originals. -/
theorem case_insensitive (g : List Char) (hne : g ≠ [])
    (halpha : ∀ c ∈ g, c ∈ __base32) :
    geohash_bounds (g.map Char.toUpper) = geohash_bounds g ∧
    geohash_decode (g.map Char.toUpper) = geohash_decode g ∧
    ∀ dc ∈ (['n', 's', 'e', 'w'] : List Char),
      geohash_adjacent (g.map Char.toUpper) dc.toUpper = geohash_adjacent g dc := by
  have hupper : (g.map Char.toUpper).map Char.toLower = g :=
    map_upper_lower_base32 g halpha
  have hlow : g.map Char.toLower = g := map_toLower_base32 g halpha
  have hne' : g.map Char.toUpper ≠ [] := by
    simpa using hne
  have hbeq : geohash_bounds (g.map Char.toUpper) = geohash_bounds g := by
    rw [geohash_bounds, geohash_bounds, if_neg hne, if_neg hne', hupper, hlow]
  refine ⟨hbeq, ?_, ?_⟩
  · rw [geohash_decode, geohash_decode, hbeq]
  · intro dc hdc
    have hp : parseDir dc.toUpper = parseDir dc := by
      fin_cases hdc <;> decide
    unfold geohash_adjacent
    rw [if_neg hne, if_neg hne', hp, hupper, hlow]

/-- Witness for C10 at the geohash `"sr"`. -/
theorem case_insensitive_witness :
    ("sr".toList ≠ [] ∧ (∀ c ∈ "sr".toList, c ∈ __base32)) ∧
    (geohash_bounds ("sr".toList.map Char.toUpper) = geohash_bounds "sr".toList ∧
     geohash_decode ("sr".toList.map Char.toUpper) = geohash_decode "sr".toList ∧
     ∀ dc ∈ (['n', 's', 'e', 'w'] : List Char),
       geohash_adjacent ("sr".toList.map Char.toUpper) dc.toUpper =
         geohash_adjacent "sr".toList dc) :=
  ⟨⟨by decide, by decide⟩, case_insensitive "sr".toList (by decide) (by decide)⟩

/-! ### Helper notions for reasoning about the encoder -/

/-- The bisection-range part of an encoding state. -/
def EncState.toB (s : EncState) : BState :=
  { evenBit := s.evenBit, latMin := s.latMin, latMax := s.latMax,
    lonMin := s.lonMin, lonMax := s.lonMax }

/-- The bit emitted by one iteration of the encoding loop. -/
def encBit (lat lon : ℚ) (s : EncState) : Bool :=
  if s.evenBit then decide (lon ≥ (s.lonMin + s.lonMax) / 2)
  else decide (lat ≥ (s.latMin + s.latMax) / 2)

/-- The bits emitted by `n` consecutive iterations of the encoding loop. -/
def encBits (lat lon : ℚ) : Nat → EncState → List Bool
  | 0, _ => []
  | n + 1, s => encBit lat lon s :: encBits lat lon n (encStep lat lon s)

/-- Folding bits into the accumulator as `idx = 2*idx + bit` does. -/
def bitsToIdx (bs : List Bool) (a : Nat) : Nat :=
  bs.foldl (fun x b => 2 * x + if b then 1 else 0) a

/-- The coordinate lies inside (or on the edge of) the state's ranges. -/
def PinB (lat lon : ℚ) (st : BState) : Prop :=
  st.latMin ≤ lat ∧ lat ≤ st.latMax ∧ st.lonMin ≤ lon ∧ lon ≤ st.lonMax

/-- One encoding iteration updates the accumulator by shifting in the
emitted bit. -/
theorem encStep_idx (lat lon : ℚ) (s : EncState) :
    (encStep lat lon s).idx = 2 * s.idx + (if encBit lat lon s then 1 else 0) := by
  rcases s with ⟨idx, ev, la, lA, lo, lO⟩
  cases ev
  · by_cases h : lat ≥ (la + lA) / 2 <;> simp [encStep, encBit, h]
  · by_cases h : lon ≥ (lo + lO) / 2 <;> simp [encStep, encBit, h]

/-- One encoding iteration narrows the ranges exactly as the bounds decoder
replaying the emitted bit does. -/
theorem encStep_toB (lat lon : ℚ) (s : EncState) :
    (encStep lat lon s).toB = decStep (encBit lat lon s) s.toB := by
  rcases s with ⟨idx, ev, la, lA, lo, lO⟩
  cases ev
  · by_cases h : lat ≥ (la + lA) / 2 <;>
      simp [encStep, encBit, decStep, EncState.toB, h]
  · by_cases h : lon ≥ (lo + lO) / 2 <;>
      simp [encStep, encBit, decStep, EncState.toB, h]

/-- One encoding iteration keeps the coordinate inside the ranges. -/
theorem encStep_pin (lat lon : ℚ) (s : EncState) (h : PinB lat lon s.toB) :
    PinB lat lon (encStep lat lon s).toB := by
  rcases s with ⟨idx, ev, la, lA, lo, lO⟩
  obtain ⟨h1, h2, h3, h4⟩ := h
  simp only [EncState.toB] at h1 h2 h3 h4
  cases ev
  · by_cases h : lat ≥ (la + lA) / 2 <;>
      · simp only [encStep, encBit, EncState.toB, PinB, if_pos, if_neg, h,
          ite_true, ite_false, Bool.false_eq_true, if_false]
        refine ⟨?_, ?_, ?_, ?_⟩ <;> simp_all <;> linarith
  · by_cases h : lon ≥ (lo + lO) / 2 <;>
      · simp only [encStep, encBit, EncState.toB, PinB, if_pos, if_neg, h,
          ite_true, ite_false, Bool.false_eq_true, if_false]
        refine ⟨?_, ?_, ?_, ?_⟩ <;> simp_all <;> linarith

/-- `n` iterations narrow the ranges exactly as replaying the `n` emitted
bits does. -/
theorem encSteps_toB (lat lon : ℚ) :
    ∀ (n : Nat) (s : EncState),
      (encSteps lat lon n s).toB =
        (encBits lat lon n s).foldl (fun st b => decStep b st) s.toB := by
  intro n
  induction n with
  | zero => intro s; rfl
  | succ n ih =>
    intro s
    rw [encSteps, encBits, List.foldl_cons, ← encStep_toB]
    exact ih (encStep lat lon s)

/-- The accumulator after `n` iterations is the fold of the emitted bits. -/
theorem encSteps_idx (lat lon : ℚ) :
    ∀ (n : Nat) (s : EncState),
      (encSteps lat lon n s).idx = bitsToIdx (encBits lat lon n s) s.idx := by
  intro n
  induction n with
  | zero => intro s; rfl
  | succ n ih =>
    intro s
    rw [encSteps, encBits, bitsToIdx, List.foldl_cons, ih (encStep lat lon s),
      encStep_idx, bitsToIdx]

/-- `n` iterations emit `n` bits. -/
theorem encBits_length (lat lon : ℚ) :
    ∀ (n : Nat) (s : EncState), (encBits lat lon n s).length = n := by
  intro n
  induction n with
  | zero => intro s; rfl
  | succ n ih => intro s; rw [encBits, List.length_cons, ih]

/-- The bit fold is bounded by the number of bits shifted in. -/
theorem bitsToIdx_lt : ∀ (bs : List Bool) (a : Nat),
    bitsToIdx bs a < (a + 1) * 2 ^ bs.length := by
  intro bs
  induction bs with
  | nil => intro a; simp [bitsToIdx]
  | cons b rest ih =>
    intro a
    have h := ih (2 * a + if b then 1 else 0)
    rw [bitsToIdx, List.foldl_cons, ← bitsToIdx] at *
    have hb : (if b then 1 else 0) ≤ 1 := by split_ifs <;> omega
    calc bitsToIdx rest (2 * a + if b then 1 else 0)
        < (2 * a + (if b then 1 else 0) + 1) * 2 ^ rest.length := h
      _ ≤ (a + 1) * 2 ^ (b :: rest).length := by
          rw [List.length_cons, pow_succ]
          nlinarith [Nat.pos_pow_of_pos rest.length (by omega : 0 < 2)]

/-- The coordinate stays inside the ranges after `n` iterations. -/
theorem encSteps_pin (lat lon : ℚ) :
    ∀ (n : Nat) (s : EncState), PinB lat lon s.toB →
      PinB lat lon (encSteps lat lon n s).toB := by
  intro n
  induction n with
  | zero => intro s h; exact h
  | succ n ih => intro s h; exact ih _ (encStep_pin lat lon s h)

/-- Extracting the five bits of a 5-bit accumulator recovers them. -/
theorem bits5_bitsToIdx : ∀ (b0 b1 b2 b3 b4 : Bool),
    bits5 (bitsToIdx [b0, b1, b2, b3, b4] 0) = [b0, b1, b2, b3, b4] := by
  decide

/-- Decoding the alphabet character of an index below 32 recovers it. -/
theorem decodemap_getD : ∀ i : Fin 32,
    __decodemap (__base32.getD i.val ' ') = some i.val := by
  decide

/-- Alphabet characters of indices below 32 are in the alphabet. -/
theorem getD_mem_base32 : ∀ i : Fin 32, __base32.getD i.val ' ' ∈ __base32 := by
  decide

/-- A list of length five is a literal five-element list. -/
theorem list_bool_length5 (l : List Bool) (h : l.length = 5) :
    ∃ b0 b1 b2 b3 b4, l = [b0, b1, b2, b3, b4] := by
  match l, h with
  | [b0, b1, b2, b3, b4], _ => exact ⟨b0, b1, b2, b3, b4, rfl⟩

/-- The encoder emits exactly `p` characters. -/
theorem encodeChars_length (lat lon : ℚ) :
    ∀ (p : Nat) (s : EncState), (encodeChars lat lon p s).length = p := by
  intro p
  induction p with
  | zero => intro s; rfl
  | succ p ih => intro s; rw [encodeChars, List.length_cons, ih]

/-- Starting from a zeroed accumulator, the accumulator after five
iterations is below 32. -/
theorem encSteps5_idx_lt (lat lon : ℚ) (s : EncState) (h0 : s.idx = 0) :
    (encSteps lat lon 5 s).idx < 32 := by
  rw [encSteps_idx, h0]
  have h := bitsToIdx_lt (encBits lat lon 5 s) 0
  rw [encBits_length] at h
  simpa using h

/-- Every character the encoder emits is in the alphabet. -/
theorem encodeChars_mem (lat lon : ℚ) :
    ∀ (p : Nat) (s : EncState), s.idx = 0 →
      ∀ c ∈ encodeChars lat lon p s, c ∈ __base32 := by
  intro p
  induction p with
  | zero => intro s _ c hc; cases hc
  | succ p ih =>
    intro s h0 c hc
    rw [encodeChars] at hc
    rcases List.mem_cons.mp hc with rfl | hmem
    · exact getD_mem_base32 ⟨(encSteps lat lon 5 s).idx, encSteps5_idx_lt lat lon s h0⟩
    · exact ih _ rfl c hmem

/-- Replaying the encoder's output through the bounds decoder's character
loop reaches exactly the encoder's final ranges; in particular the
coordinate stays inside them. -/
theorem boundsChars_encodeChars (lat lon : ℚ) :
    ∀ (p : Nat) (s : EncState), s.idx = 0 → PinB lat lon s.toB →
      ∃ st', boundsChars (encodeChars lat lon p s) s.toB = Except.ok st' ∧
        PinB lat lon st' := by
  intro p
  induction p with
  | zero => intro s _ hpin; exact ⟨s.toB, rfl, hpin⟩
  | succ p ih =>
    intro s h0 hpin
    have hlt : (encSteps lat lon 5 s).idx < 32 := encSteps5_idx_lt lat lon s h0
    have hdm : __decodemap (__base32.getD (encSteps lat lon 5 s).idx ' ') =
        some (encSteps lat lon 5 s).idx := decodemap_getD ⟨_, hlt⟩
    obtain ⟨b0, b1, b2, b3, b4, hbs⟩ :=
      list_bool_length5 (encBits lat lon 5 s) (encBits_length lat lon 5 s)
    have hidx : (encSteps lat lon 5 s).idx = bitsToIdx [b0, b1, b2, b3, b4] 0 := by
      rw [encSteps_idx, h0, hbs]
    have hbits : bits5 (encSteps lat lon 5 s).idx = encBits lat lon 5 s := by
      rw [hidx, bits5_bitsToIdx, hbs]
    have hfold : (bits5 (encSteps lat lon 5 s).idx).foldl
        (fun st b => decStep b st) s.toB = (encSteps lat lon 5 s).toB := by
      rw [hbits, ← encSteps_toB]
    have hpin5 : PinB lat lon (encSteps lat lon 5 s).toB :=
      encSteps_pin lat lon 5 s hpin
    obtain ⟨st', hst', hpst'⟩ :=
      ih { encSteps lat lon 5 s with idx := 0 } rfl hpin5
    refine ⟨st', ?_, hpst'⟩
    simp only [encodeChars, boundsChars, hdm]
    rw [hfold]
    exact hst'

/-- C7: For every coordinate in range and every precision `p ≥ 1`, the
encoder succeeds and returns a string of length exactly `p` whose
characters all belong to the 32-character alphabet. -/
theorem encode_length_alphabet (lat lon : ℚ) (p : Nat)
    (h1 : -90 ≤ lat) (h2 : lat ≤ 90) (h3 : -180 ≤ lon) (h4 : lon ≤ 180)
    (_hp : 1 ≤ p) :
    ∃ s, geohash_encode { lat := lat, lon := lon } p = Except.ok s ∧
      s.length = p ∧ ∀ c ∈ s, c ∈ __base32 := by
  refine ⟨encodeChars lat lon p initEncState, ?_,
    encodeChars_length lat lon p initEncState,
    encodeChars_mem lat lon p initEncState rfl⟩
  rw [geohash_encode,
    if_neg (not_or.mpr ⟨not_lt.mpr h1, not_lt.mpr h2⟩),
    if_neg (not_or.mpr ⟨not_lt.mpr h3, not_lt.mpr h4⟩)]

/-- Witness for C7 at the coordinate `(0, 0)` and precision 2. -/
theorem encode_length_alphabet_witness :
    ((-90 : ℚ) ≤ 0 ∧ (0 : ℚ) ≤ 90 ∧ (-180 : ℚ) ≤ 0 ∧ (0 : ℚ) ≤ 180 ∧ 1 ≤ 2) ∧
    (∃ s, geohash_encode { lat := 0, lon := 0 } 2 = Except.ok s ∧
      s.length = 2 ∧ ∀ c ∈ s, c ∈ __base32) :=
  ⟨⟨by norm_num, by norm_num, by norm_num, by norm_num, by norm_num⟩,
    encode_length_alphabet 0 0 2 (by norm_num) (by norm_num) (by norm_num)
      (by norm_num) (by norm_num)⟩

/-- C6: For every coordinate in range and every precision `p ≥ 1`, the
bounding box decoded from the encoder's output contains the coordinate
(the rational model computes the bisections exactly, so no floating-point
tolerance is needed). -/
theorem encode_bounds_roundtrip (lat lon : ℚ) (p : Nat)
    (h1 : -90 ≤ lat) (h2 : lat ≤ 90) (h3 : -180 ≤ lon) (h4 : lon ≤ 180)
    (hp : 1 ≤ p) :
    ∃ s b, geohash_encode { lat := lat, lon := lon } p = Except.ok s ∧
      geohash_bounds s = Except.ok b ∧
      b.sw.lat ≤ lat ∧ lat ≤ b.ne.lat ∧ b.sw.lon ≤ lon ∧ lon ≤ b.ne.lon := by
  have henc : geohash_encode { lat := lat, lon := lon } p =
      Except.ok (encodeChars lat lon p initEncState) := by
    rw [geohash_encode,
      if_neg (not_or.mpr ⟨not_lt.mpr h1, not_lt.mpr h2⟩),
      if_neg (not_or.mpr ⟨not_lt.mpr h3, not_lt.mpr h4⟩)]
  have hmem := encodeChars_mem lat lon p initEncState rfl
  have hne : encodeChars lat lon p initEncState ≠ [] := by
    intro h
    have hlen := encodeChars_length lat lon p initEncState
    rw [h] at hlen
    simp only [List.length_nil] at hlen
    omega
  have hlow : (encodeChars lat lon p initEncState).map Char.toLower =
      encodeChars lat lon p initEncState :=
    map_toLower_base32 _ hmem
  obtain ⟨st', hst', hpin'⟩ :=
    boundsChars_encodeChars lat lon p initEncState rfl ⟨h1, h2, h3, h4⟩
  obtain ⟨hp1, hp2, hp3, hp4⟩ := hpin'
  refine ⟨encodeChars lat lon p initEncState,
    { sw := { lat := st'.latMin, lon := st'.lonMin },
      ne := { lat := st'.latMax, lon := st'.lonMax } },
    henc, ?_, hp1, hp2, hp3, hp4⟩
  rw [geohash_bounds, if_neg hne, hlow]
  have hinit : (initEncState.toB) = initBState := rfl
  rw [hinit] at hst'
  rw [hst']

/-- Witness for C6 at the coordinate `(0, 0)` and precision 1. -/
theorem encode_bounds_roundtrip_witness :
    ((-90 : ℚ) ≤ 0 ∧ (0 : ℚ) ≤ 90 ∧ (-180 : ℚ) ≤ 0 ∧ (0 : ℚ) ≤ 180 ∧ 1 ≤ 1) ∧
    (∃ s b, geohash_encode { lat := 0, lon := 0 } 1 = Except.ok s ∧
      geohash_bounds s = Except.ok b ∧
      b.sw.lat ≤ 0 ∧ (0 : ℚ) ≤ b.ne.lat ∧ b.sw.lon ≤ 0 ∧ (0 : ℚ) ≤ b.ne.lon) :=
  ⟨⟨by norm_num, by norm_num, by norm_num, by norm_num, by norm_num⟩,
    encode_bounds_roundtrip 0 0 1 (by norm_num) (by norm_num) (by norm_num)
      (by norm_num) (by norm_num)⟩

/-- C4 (amended): the encoder validates the coordinate ranges and fails with
`invalidArgument` whenever latitude or longitude is out of range; but the
source does *not* validate `precision < 1` (only `precision is None`), so an
in-range coordinate with precision 0 — and likewise any non-positive
precision, which drives the `while` loop identically — returns the empty
string instead of failing. -/
theorem encode_validation (lat lon : ℚ) (p : Nat) :
    ((lat < -90 ∨ lat > 90 ∨ lon < -180 ∨ lon > 180) →
      geohash_encode { lat := lat, lon := lon } p =
        Except.error GeoErr.invalidArgument) ∧
    (-90 ≤ lat → lat ≤ 90 → -180 ≤ lon → lon ≤ 180 →
      geohash_encode { lat := lat, lon := lon } 0 = Except.ok []) := by
  constructor
  · rintro (h | h | h | h)
    · rw [geohash_encode, if_pos (Or.inl h)]
    · rw [geohash_encode, if_pos (Or.inr h)]
    · by_cases hl : lat < -90 ∨ lat > 90
      · rw [geohash_encode, if_pos hl]
      · rw [geohash_encode, if_neg hl, if_pos (Or.inl h)]
    · by_cases hl : lat < -90 ∨ lat > 90
      · rw [geohash_encode, if_pos hl]
      · rw [geohash_encode, if_neg hl, if_pos (Or.inr h)]
  · intro h1 h2 h3 h4
    rw [geohash_encode,
      if_neg (not_or.mpr ⟨not_lt.mpr h1, not_lt.mpr h2⟩),
      if_neg (not_or.mpr ⟨not_lt.mpr h3, not_lt.mpr h4⟩)]
    rfl

/-- Witness for the amended C4: an out-of-range latitude is rejected, and an
in-range coordinate with precision 0 yields the empty string. -/
theorem encode_validation_witness :
    geohash_encode { lat := 100, lon := 0 } 5 = Except.error GeoErr.invalidArgument ∧
    geohash_encode { lat := 0, lon := 0 } 0 = Except.ok [] :=
  ⟨(encode_validation 100 0 5).1 (by norm_num),
    (encode_validation 0 0 0).2 (by norm_num) (by norm_num) (by norm_num)
      (by norm_num)⟩

/-- Counterexample to C4 as stated: `precision = 0 < 1` is not rejected —
the encoder returns the (empty) geohash `""` for the valid coordinate
`(0, 0)`, so a value *is* returned for a precision below 1. -/
theorem encode_precision_zero_counterexample :
    geohash_encode { lat := 0, lon := 0 } 0 = Except.ok [] := by
  rw [geohash_encode]
  rw [if_neg (by norm_num : ¬ ((0 : ℚ) < -90 ∨ (0 : ℚ) > 90))]
  rw [if_neg (by norm_num : ¬ ((0 : ℚ) < -180 ∨ (0 : ℚ) > 180))]
  rfl

end Gea
